import Mathlib

/- Verification of the `check-broken-packages` pacman hook
   (src/check-broken-packages/src/main.rs) through a shallow embedding of its
   pure core. Text (package names, file paths, command output lines) is
   modelled as lists of characters; external collaborators (the pacman
   catalog, the filesystem, the `ldd` probe) are modelled as explicit inputs;
   Rust panics / `unwrap` failures are modelled as `Option.none`. -/

namespace Pacman

/-- Text is modelled as a list of characters. -/
abbrev Str := List Char

/-- Embedding of Rust `str::split(sep)` (single-character separator): splits
into the (possibly empty) pieces between occurrences of `sep`; always returns
at least one piece. -/
def splitChar (sep : Char) : Str → List Str
  | [] => [[]]
  | c :: cs =>
    if c = sep then [] :: splitChar sep cs
    else
      match splitChar sep cs with
      | [] => [[c]]
      | t :: ts => (c :: t) :: ts

/-- ASCII fragment of Rust `char::is_whitespace` (the inputs handled by the
program are ASCII command output). -/
def isRustWhitespace (c : Char) : Bool :=
  c == ' ' || c == '\t' || c == '\n' || c == '\r' || c == '\x0b' || c == '\x0c'

/-- Embedding of Rust `str::trim_start`. -/
def trimStart (s : Str) : Str := s.dropWhile isRustWhitespace

/-- Output of one external command invocation: the exit status
(`status.success()`) and the stdout lines. -/
structure ProbeOutput where
  success : Bool
  lines : List Str

/-- Embedding of `get_missing_dependencies` (main.rs:176-194): when `ldd`
exits zero, keep the lines ending in the literal `"=> not found"` and map each
to its first piece under `split(' ')` with leading whitespace trimmed;
otherwise return nothing. -/
def get_missing_dependencies (out : ProbeOutput) : List Str :=
  if out.success then
    (out.lines.filter (fun l => List.isSuffixOf "=> not found".toList l)).map
      (fun l => trimStart ((splitChar ' ' l).headD []))
  else []

/-- First whitespace-delimited token of a line (used to state the spec's
description of the Dependency Checker). -/
def firstWhitespaceToken (l : Str) : Str :=
  (l.dropWhile isRustWhitespace).takeWhile (fun c => !isRustWhitespace c)

/-- Formalisation of C3 as the spec words it: keep each line whose trailing
token is the literal marker `"not found"` and report that line's first
whitespace-delimited token. -/
def spec_missing_dependencies (out : ProbeOutput) : List Str :=
  if out.success then
    out.lines.filterMap (fun l =>
      if List.isSuffixOf "not found".toList l then some (firstWhitespaceToken l)
      else none)
  else []

/-- The amended description of the Dependency Checker: keep each line whose
suffix is the literal `"=> not found"` and report the segment of the line
before its first space character, with leading whitespace trimmed. -/
def amended_missing_dependencies (out : ProbeOutput) : List Str :=
  if out.success then
    out.lines.filterMap (fun l =>
      if List.isSuffixOf "=> not found".toList l then
        some (trimStart (l.takeWhile (fun c => c != ' ')))
      else none)
  else []

/-- Digit-accumulation loop of Rust `u8::from_str` (`from_str_radix` base 10):
fold the digits left to right, failing on a non-digit character or whenever
the accumulated value leaves the `u8` range. -/
def parseU8Loop : Str → Nat → Option Nat
  | [], a => some a
  | c :: cs, a =>
    if c.isDigit then
      if a * 10 + (c.toNat - 48) ≤ 255 then parseU8Loop cs (a * 10 + (c.toNat - 48))
      else none
    else none

/-- Embedding of Rust `u8::from_str`: an optional leading `'+'` followed by a
nonempty run of decimal digits whose value fits in `u8`. The machine integer
is modelled as `Nat` with the explicit 255 bound. -/
def parseU8 (s : Str) : Option Nat :=
  match s with
  | [] => none
  | c :: rest =>
    if c = '+' then (if rest = [] then none else parseU8Loop rest 0)
    else parseU8Loop (c :: rest) 0

/-- Value of a digit string read left to right starting from accumulator `a`
(no range check); the reference meaning of decimal numerals. -/
def valFrom (a : Nat) : Str → Nat
  | [] => a
  | c :: cs => valFrom (a * 10 + (c.toNat - 48)) cs

/-- A decimal numeral: nonempty, all characters decimal digits. -/
def isNumeral (s : Str) : Bool := !s.isEmpty && s.all Char.isDigit

/-- Embedding of `PythonPackageVersion` (main.rs:37-42); the `u8` fields are
modelled as `Nat` (the parser enforces the 255 bound). `package` is the
pacman packaging/build number. -/
structure PythonPackageVersion where
  major : Nat
  minor : Nat
  release : Nat
  package : Nat
deriving DecidableEq

/-- Embedding of the parsing part of `get_python_version` (main.rs:74-87):
split the version text on `'.'`, parse the first two pieces, split the third
piece on `'-'` and parse its first two pieces; any `unwrap` failure is a
panic, modelled as `none`. -/
def parsePythonVersion (s : Str) : Option PythonPackageVersion := do
  let dots := splitChar '.' s
  let majorStr ← dots[0]?
  let minorStr ← dots[1]?
  let relStr ← dots[2]?
  let major ← parseU8 majorStr
  let minor ← parseU8 minorStr
  let dashes := splitChar '-' relStr
  let releaseStr ← dashes[0]?
  let packageStr ← dashes[1]?
  let release ← parseU8 releaseStr
  let package ← parseU8 packageStr
  pure ⟨major, minor, release, package⟩

/-- Embedding of the version-text extraction in `get_python_version`
(main.rs:65-72): first line of `pacman -Qi python` output starting with
`"Version"`, its second piece under `split(':')`, leading whitespace
trimmed; a missing line or piece is a panic (`none`). -/
def extractVersionStr (lines : List Str) : Option Str :=
  match lines.filter (fun l => List.isPrefixOf "Version".toList l) with
  | [] => none
  | l :: _ =>
    match (splitChar ':' l)[1]? with
    | none => none
    | some v => some (trimStart v)

/-- Embedding of `get_python_version` (main.rs:54-87) as a function of the
catalog's `pacman -Qi python` stdout lines. -/
def get_python_version (lines : List Str) : Option PythonPackageVersion := do
  let vs ← extractVersionStr lines
  parsePythonVersion vs

/-- Formalisation of the spec's version format
`"<major>.<minor>.<release>-<build>"`: exactly three dot-separated pieces,
the third of which is exactly two dash-separated pieces, all four decimal
numerals. -/
def matchesVersionFormat (s : Str) : Bool :=
  match splitChar '.' s with
  | [a, b, rest] =>
    (match splitChar '-' rest with
     | [c, d] => isNumeral a && isNumeral b && isNumeral c && isNumeral d
     | _ => false)
  | _ => false

/-- Shape of version texts accepted by the code's parser: at least three
dot-separated pieces whose first two parse as `u8`, the third having at least
two dash-separated pieces that parse as `u8`; later pieces are ignored. -/
def versionShapeOK (s : Str) : Bool :=
  match (splitChar '.' s)[0]?, (splitChar '.' s)[1]?, (splitChar '.' s)[2]? with
  | some sa, some sb, some sc =>
    (parseU8 sa).isSome && (parseU8 sb).isSome &&
      (match (splitChar '-' sc)[0]?, (splitChar '-' sc)[1]? with
       | some s1, some s2 => (parseU8 s1).isSome && (parseU8 s2).isSome
       | _, _ => false)
  | _, _, _ => false

/-- Result of `fs::metadata` on one path: whether the (symlink-followed)
file type is a regular file, and the permission mode bits. -/
structure FileMeta where
  isFile : Bool
  mode : Nat
deriving DecidableEq

/-- Whether one manifest path survives the filter of
`get_package_executable_files`: metadata available, regular file, at least
one of the 0o111 executable bits set. -/
def execFileKeep (fsMeta : Str → Option FileMeta) (path : Str) : Bool :=
  match fsMeta path with
  | none => false
  | some m => m.isFile && ((m.mode &&& 0o111) != 0)

/-- Embedding of `get_package_executable_files` (main.rs:149-174) as a
function of the `pacman -Ql` stdout lines and the filesystem metadata query:
for each line take the second piece under `split(' ')` (the `unwrap` on a
missing piece is a panic, modelled as `none` for the whole call), skip the
path when metadata fails, keep it when it is a regular file with an
executable bit set. -/
def get_package_executable_files (fsMeta : Str → Option FileMeta) :
    List Str → Option (List Str)
  | [] => some []
  | line :: rest =>
    match (splitChar ' ' line)[1]? with
    | none => none
    | some path =>
      match fsMeta path with
      | none => get_package_executable_files fsMeta rest
      | some m =>
        if m.isFile && ((m.mode &&& 0o111) != 0) then
          (get_package_executable_files fsMeta rest).map (fun fs => path :: fs)
        else get_package_executable_files fsMeta rest

/-- The directory of the active interpreter,
`format!("/usr/lib/python{}.{}", major, minor)` (main.rs:111-114). -/
def currentPythonDir (v : PythonPackageVersion) : Str :=
  "/usr/lib/python".toList ++ (Nat.repr v.major).toList ++ '.' :: (Nat.repr v.minor).toList

/-- `push_back` guarded by `contains` (main.rs:128-131). -/
def pushIfNew {α : Type} [DecidableEq α] (acc : List α) (x : α) : List α :=
  if x ∈ acc then acc else acc ++ [x]

/-- Inner loop of `get_broken_python_packages`: record each (package,
directory) couple of one directory if not already recorded. -/
def addDirPackages (dir : Str) (pkgs : List Str) (acc : List (Str × Str)) :
    List (Str × Str) :=
  pkgs.foldl (fun a p => pushIfNew a (p, dir)) acc

/-- Embedding of `get_broken_python_packages` (main.rs:106-137) as a function
of the glob matches (`pythonDirs`) and the catalog's owning-packages query:
for every matched directory other than the active `major.minor` one, record
its owning packages' couples without duplicates. -/
def get_broken_python_packages (owning : Str → List Str) (pythonDirs : List Str)
    (v : PythonPackageVersion) : List (Str × Str) :=
  pythonDirs.foldl
    (fun acc dir =>
      if dir ≠ currentPythonDir v then addDirPackages dir (owning dir) acc else acc)
    []

/-- Embedding of `ExecFileWork` (main.rs:26-35). -/
structure ExecFileWork where
  package : Str
  exec_filepath : Str
  package_last : Bool
deriving DecidableEq

/-- A missing-dependency finding: (package, executable path, library name),
as sent over the findings channel (main.rs:244-248). -/
abbrev Finding := Str × Str × Str

/-- The environment one scan runs against: the per-package result of the
Executable File Enumerator and the per-path `ldd` probe output. -/
structure ScanEnv where
  execFiles : Str → List Str
  probe : Str → ProbeOutput

/-- Work items a Stage A worker emits for one package with files
(main.rs:282-292): one item per executable, `package_last` set on the item
whose index equals `exec_files.len() - 1`. -/
def stageA_items (pkg : Str) (files : List Str) : List ExecFileWork :=
  files.enum.map (fun p => (⟨pkg, p.2, p.1 == files.length - 1⟩ : ExecFileWork))

/-- One Stage A loop iteration (main.rs:275-293): on a package with no
executables increment progress by one and emit nothing, otherwise emit the
tagged work items and no increment. Result: (emitted items, progress
increments). -/
def stageA_package (env : ScanEnv) (pkg : Str) : List ExecFileWork × Nat :=
  let files := env.execFiles pkg
  if files.isEmpty then ([], 1) else (stageA_items pkg files, 0)

/-- One Stage B loop iteration (main.rs:240-257): probe the executable, emit
one finding per missing dependency, and increment progress exactly when the
item carries the `package_last` tag. Result: (emitted findings, progress
increments). -/
def stageB_item (env : ScanEnv) (w : ExecFileWork) : List Finding × Nat :=
  ((get_missing_dependencies (env.probe w.exec_filepath)).map
      (fun d => (w.package, w.exec_filepath, d)),
   if w.package_last then 1 else 0)

/-- All work items Stage A emits over a scan, in package order. -/
def scan_exec_items (env : ScanEnv) (pkgs : List Str) : List ExecFileWork :=
  pkgs.flatMap (fun p => (stageA_package env p).1)

/-- Total progress increments performed by Stage A over a scan. -/
def scan_stageA_incs (env : ScanEnv) (pkgs : List Str) : Nat :=
  (pkgs.map (fun p => (stageA_package env p).2)).sum

/-- Total progress increments performed by Stage B over a list of work
items. -/
def scan_stageB_incs (env : ScanEnv) (items : List ExecFileWork) : Nat :=
  (items.map (fun w => (stageB_item env w).2)).sum

/-- All findings Stage B emits for a list of work items, in item order. -/
def scan_findings (env : ScanEnv) (items : List ExecFileWork) : List Finding :=
  items.flatMap (fun w => (stageB_item env w).1)

/-- Reference reformulation of the Stage A tagging: every item untagged
except the last one. Proved equal to `stageA_items`. -/
def tagLast (pkg : Str) : List Str → List ExecFileWork
  | [] => []
  | [f] => [⟨pkg, f, true⟩]
  | f :: g :: rest => ⟨pkg, f, false⟩ :: tagLast pkg (g :: rest)

/-- Example scan environment: package `"foo"` owns two executables, every
other package none; every probe reports one missing library. -/
def exScanEnv : ScanEnv :=
  ⟨fun p => if p = "foo".toList then ["/usr/bin/a".toList, "/usr/bin/b".toList] else [],
   fun _ => ProbeOutput.mk true ["liba.so => not found".toList]⟩

theorem splitChar_ne_nil (sep : Char) (l : Str) : splitChar sep l ≠ [] := by
  induction l with
  | nil => simp [splitChar]
  | cons c cs ih =>
    simp only [splitChar]
    split
    · simp
    · split
      · simp
      · simp

theorem splitChar_cons_sep (sep : Char) (l : Str) :
    splitChar sep (sep :: l) = [] :: splitChar sep l := by
  simp [splitChar]

/-- Splitting an appended list whose first part avoids the separator prepends
that part onto the first piece of the second part's split. -/
theorem splitChar_append (sep : Char) (a b : Str) (h : ∀ c ∈ a, c ≠ sep) :
    splitChar sep (a ++ b) = (splitChar sep b).modifyHead (a ++ ·) := by
  induction a with
  | nil =>
    cases hb : splitChar sep b with
    | nil => simp [hb, List.modifyHead]
    | cons t ts => simp [hb, List.modifyHead]
  | cons c a' ih =>
    have hc : c ≠ sep := h c (by simp)
    have h' : ∀ x ∈ a', x ≠ sep := fun x hx => h x (by simp [hx])
    have hne := splitChar_ne_nil sep b
    cases hb : splitChar sep b with
    | nil => exact absurd hb hne
    | cons t ts =>
      have hrec := ih h'
      rw [hb] at hrec
      simp only [List.modifyHead] at hrec
      simp only [List.cons_append, splitChar, if_neg hc, List.append_eq, hrec,
        List.modifyHead]

theorem splitChar_append_sep (sep : Char) (a b : Str) (h : ∀ c ∈ a, c ≠ sep) :
    splitChar sep (a ++ sep :: b) = a :: splitChar sep b := by
  rw [splitChar_append sep a (sep :: b) h, splitChar_cons_sep]
  simp [List.modifyHead]

theorem splitChar_no_sep (sep : Char) (a : Str) (h : ∀ c ∈ a, c ≠ sep) :
    splitChar sep a = [a] := by
  have := splitChar_append sep a [] h
  simpa [splitChar, List.modifyHead] using this

/-- The first piece of a split is the longest separator-free leading segment. -/
theorem splitChar_headD (sep : Char) (l : Str) :
    (splitChar sep l).headD [] = l.takeWhile (fun c => c != sep) := by
  induction l with
  | nil => simp [splitChar, List.takeWhile]
  | cons c cs ih =>
    by_cases hc : c = sep
    · subst hc
      simp [splitChar, List.takeWhile]
    · simp only [splitChar, if_neg hc]
      cases hb : splitChar sep cs with
      | nil => exact absurd hb (splitChar_ne_nil sep cs)
      | cons t ts =>
        rw [hb] at ih
        simp only [List.headD] at ih
        have hcb : (c != sep) = true := by simp [hc]
        simp [List.takeWhile, hcb, ih]

theorem splitChar_getElem_zero (sep : Char) (l : Str) :
    (splitChar sep l)[0]? = some (l.takeWhile (fun c => c != sep)) := by
  have hne := splitChar_ne_nil sep l
  have hh := splitChar_headD sep l
  cases hb : splitChar sep l with
  | nil => exact absurd hb hne
  | cons t ts =>
    rw [hb] at hh
    simp only [List.headD] at hh
    simp [hh]

theorem takeWhile_idem (p : Char → Bool) (l : Str) :
    (l.takeWhile p).takeWhile p = l.takeWhile p := by
  induction l with
  | nil => simp
  | cons c cs ih =>
    by_cases hc : p c = true
    · simp [List.takeWhile, hc, ih]
    · simp [List.takeWhile, hc]

theorem map_filter_eq_filterMap {α β : Type} (p : α → Bool) (f : α → β) (l : List α) :
    (l.filter p).map f = l.filterMap (fun a => if p a then some (f a) else none) := by
  induction l with
  | nil => simp
  | cons a l ih =>
    by_cases ha : p a = true
    · simp [List.filter, List.filterMap, ha, ih]
    · simp [List.filter, List.filterMap, ha, ih]

theorem valFrom_nil (a : Nat) : valFrom a [] = a := rfl

theorem valFrom_cons (a : Nat) (c : Char) (cs : Str) :
    valFrom a (c :: cs) = valFrom (a * 10 + (c.toNat - 48)) cs := rfl

theorem parseU8Loop_nil (a : Nat) : parseU8Loop [] a = some a := rfl

theorem parseU8Loop_cons (a : Nat) (c : Char) (cs : Str) :
    parseU8Loop (c :: cs) a =
      if c.isDigit then
        if a * 10 + (c.toNat - 48) ≤ 255 then parseU8Loop cs (a * 10 + (c.toNat - 48))
        else none
      else none := rfl

theorem valFrom_le (cs : Str) : ∀ a : Nat, a ≤ valFrom a cs := by
  induction cs with
  | nil => intro a; simp [valFrom_nil]
  | cons c cs ih =>
    intro a
    have h1 : a ≤ a * 10 + (c.toNat - 48) := by omega
    rw [valFrom_cons]
    exact le_trans h1 (ih _)

theorem parseU8Loop_eq (cs : Str) : ∀ a : Nat, a ≤ 255 →
    parseU8Loop cs a =
      if cs.all Char.isDigit ∧ valFrom a cs ≤ 255 then some (valFrom a cs) else none := by
  induction cs with
  | nil =>
    intro a ha
    simp [parseU8Loop_nil, valFrom_nil, ha]
  | cons c cs ih =>
    intro a ha
    by_cases hd : c.isDigit = true
    · by_cases hb : a * 10 + (c.toNat - 48) ≤ 255
      · rw [parseU8Loop_cons, if_pos hd, if_pos hb, ih _ hb, valFrom_cons]
        simp [List.all_cons, hd]
      · rw [parseU8Loop_cons, if_pos hd, if_neg hb]
        have hv : ¬ (valFrom a (c :: cs) ≤ 255) := by
          have h1 := valFrom_le cs (a * 10 + (c.toNat - 48))
          rw [valFrom_cons]
          omega
        simp [hv]
    · rw [parseU8Loop_cons, if_neg hd]
      simp [List.all_cons, hd]

theorem parseU8Loop_some (cs : Str) (v : Nat) (h : parseU8Loop cs 0 = some v) :
    cs.all Char.isDigit = true ∧ valFrom 0 cs = v ∧ v ≤ 255 := by
  rw [parseU8Loop_eq cs 0 (by omega)] at h
  split at h
  · rename_i hcond
    cases h
    exact ⟨hcond.1, rfl, hcond.2⟩
  · cases h

theorem parseU8_chars (s : Str) (v : Nat) (h : parseU8 s = some v) :
    ∀ c ∈ s, c = '+' ∨ c.isDigit = true := by
  intro c hc
  cases s with
  | nil => simp [parseU8] at h
  | cons c0 rest =>
    by_cases h0 : c0 = '+'
    · subst h0
      simp only [parseU8, if_pos rfl] at h
      by_cases hr : rest = []
      · rw [if_pos hr] at h; cases h
      · rw [if_neg hr] at h
        have hall := (parseU8Loop_some rest v h).1
        rcases List.mem_cons.mp hc with h1 | h1
        · exact Or.inl h1
        · exact Or.inr (List.all_eq_true.mp hall c h1)
    · simp only [parseU8, if_neg h0] at h
      have hall := (parseU8Loop_some (c0 :: rest) v h).1
      exact Or.inr (List.all_eq_true.mp hall c hc)

theorem parseU8_no_sep (s : Str) (v : Nat) (sep : Char) (h : parseU8 s = some v)
    (h1 : sep ≠ '+') (h2 : sep.isDigit = false) : ∀ c ∈ s, c ≠ sep := by
  intro c hc heq
  subst heq
  rcases parseU8_chars s v h c hc with h3 | h3
  · exact h1 h3
  · rw [h3] at h2; cases h2

theorem enumFrom_map_tag (pkg : Str) (files : List Str) : ∀ n m : Nat,
    m = n + files.length - 1 →
    (List.enumFrom n files).map (fun p => (⟨pkg, p.2, p.1 == m⟩ : ExecFileWork))
      = tagLast pkg files := by
  induction files with
  | nil => intro n m _; simp [tagLast]
  | cons f rest ih =>
    intro n m hm
    cases rest with
    | nil =>
      have hmn : m = n := by simp at hm; omega
      subst hmn
      simp [List.enumFrom, tagLast]
    | cons g rest' =>
      have hne : (n == m) = false := by
        have : n ≠ m := by simp [List.length_cons] at hm; omega
        exact beq_eq_false_iff_ne.mpr this
      have hm' : m = (n + 1) + (g :: rest').length - 1 := by
        simp [List.length_cons] at hm ⊢; omega
      rw [List.enumFrom_cons, List.map_cons, ih (n + 1) m hm']
      simp [tagLast, hne]

theorem stageA_items_eq_tagLast (pkg : Str) (files : List Str) :
    stageA_items pkg files = tagLast pkg files := by
  have h := enumFrom_map_tag pkg files 0 (files.length - 1) (by omega)
  simpa [stageA_items, List.enum] using h

theorem length_tagLast (pkg : Str) : ∀ files : List Str,
    (tagLast pkg files).length = files.length
  | [] => by simp [tagLast]
  | [f] => by simp [tagLast]
  | f :: g :: rest => by
    simp [tagLast, length_tagLast pkg (g :: rest)]

theorem countP_tagLast (pkg : Str) : ∀ files : List Str, files ≠ [] →
    (tagLast pkg files).countP (fun w => w.package_last) = 1
  | [], h => absurd rfl h
  | [f], _ => by simp [tagLast]
  | f :: g :: rest, _ => by
    simp [tagLast, List.countP_cons, countP_tagLast pkg (g :: rest) (by simp)]

theorem get_tagLast (pkg : Str) : ∀ (files : List Str) (i : Nat)
    (h : i < (tagLast pkg files).length) (h' : i < files.length),
    (tagLast pkg files).get ⟨i, h⟩ = ⟨pkg, files.get ⟨i, h'⟩, i == files.length - 1⟩
  | [], i, h, h' => by simp [tagLast] at h
  | [f], i, h, h' => by
    simp [tagLast] at h
    have : i = 0 := by omega
    subst this
    simp [tagLast]
  | f :: g :: rest, i, h, h' => by
    cases i with
    | zero =>
      simp [tagLast]
    | succ j =>
      have hh : j < (tagLast pkg (g :: rest)).length := by
        simp [tagLast] at h ⊢; omega
      have hh' : j < (g :: rest).length := by simp at h' ⊢; omega
      have hrec := get_tagLast pkg (g :: rest) j hh hh'
      simp only [tagLast, List.get_cons_succ, hrec]
      simp [List.length_cons]

theorem scan_stageB_incs_eq_countP (env : ScanEnv) (items : List ExecFileWork) :
    scan_stageB_incs env items = items.countP (fun w => w.package_last) := by
  induction items with
  | nil => simp [scan_stageB_incs]
  | cons w ws ih =>
    cases hw : w.package_last <;>
      simp [scan_stageB_incs, stageB_item, List.countP_cons, hw] <;>
      simp [scan_stageB_incs, stageB_item] at ih <;> omega

theorem gpef_eq (fsMeta : Str → Option FileMeta) :
    ∀ lines : List Str, (∀ l ∈ lines, ((splitChar ' ' l)[1]?).isSome) →
    get_package_executable_files fsMeta lines
      = some ((lines.filterMap (fun l => (splitChar ' ' l)[1]?)).filter (execFileKeep fsMeta))
  | [], _ => by simp [get_package_executable_files]
  | line :: rest, hok => by
    obtain ⟨path, hpath⟩ := Option.isSome_iff_exists.mp (hok line (by simp))
    have ihr := gpef_eq fsMeta rest (fun l hl' => hok l (by simp [hl']))
    simp only [get_package_executable_files, hpath]
    cases hm : fsMeta path with
    | none =>
      simp [List.filterMap_cons, hpath, List.filter_cons, execFileKeep, hm, ihr]
    | some m =>
      by_cases hk : (m.isFile && ((m.mode &&& 0o111) != 0)) = true
      · simp [List.filterMap_cons, hpath, List.filter_cons, execFileKeep, hm, hk, ihr]
      · simp [List.filterMap_cons, hpath, List.filter_cons, execFileKeep, hm, hk, ihr]

theorem gpef_mem (fsMeta : Str → Option FileMeta) :
    ∀ (lines : List Str) (files : List Str),
    get_package_executable_files fsMeta lines = some files →
    ∀ p ∈ files, ∃ m, fsMeta p = some m ∧ m.isFile = true ∧ m.mode &&& 0o111 ≠ 0
  | [], files, h => by
    simp [get_package_executable_files] at h
    intro p hp
    rw [h] at hp
    simp at hp
  | line :: rest, files, h => by
    intro p hp
    revert h
    simp only [get_package_executable_files]
    cases hsp : (splitChar ' ' line)[1]? with
    | none => intro h; cases h
    | some path =>
      dsimp only
      cases hm : fsMeta path with
      | none =>
        dsimp only
        intro h
        exact gpef_mem fsMeta rest files h p hp
      | some m =>
        dsimp only
        by_cases hk : (m.isFile && ((m.mode &&& 0o111) != 0)) = true
        · rw [if_pos hk]
          cases hr : get_package_executable_files fsMeta rest with
          | none => intro h; cases h
          | some fs =>
            intro h
            simp only [Option.map_some', Option.some.injEq] at h
            rw [← h] at hp
            rcases List.mem_cons.mp hp with hp1 | hp1
            · subst hp1
              have hk' : m.isFile = true ∧ m.mode &&& 0o111 ≠ 0 := by
                simpa using hk
              exact ⟨m, hm, hk'.1, hk'.2⟩
            · exact gpef_mem fsMeta rest fs hr p hp1
        · rw [if_neg hk]
          intro h
          exact gpef_mem fsMeta rest files h p hp

/-- C3 (amended): given the probe's captured output for one executable, the
Dependency Checker returns the empty list when the probe exited non-zero, and
otherwise returns, in original line order, for each line whose suffix is the
literal `"=> not found"`, the segment of the line before its first space
character with leading whitespace trimmed, ignoring all other lines. -/
theorem C3_missing_dependencies (out : ProbeOutput) :
    get_missing_dependencies out = amended_missing_dependencies out := by
  unfold get_missing_dependencies amended_missing_dependencies
  cases hs : out.success
  · simp
  · simp only [if_pos rfl]
    rw [map_filter_eq_filterMap]
    apply List.filterMap_congr
    intro l _
    rw [splitChar_headD]

/-- C3 counterexample: on probe output with the lines
`" libY.so => not found"` (leading space) and `"libX.so not found"` (trailing
token `"not found"` without the `"=>"`), the code's result differs from the
claim's description: the code reports `""` for the first line and nothing for
the second, while the claim predicts `"libY.so"` and `"libX.so"`. -/
theorem C3_counterexample :
    get_missing_dependencies
        ⟨true, [" libY.so => not found".toList, "libX.so not found".toList]⟩ ≠
      spec_missing_dependencies
        ⟨true, [" libY.so => not found".toList, "libX.so not found".toList]⟩ := by
  decide

/-- C5: the Executable File Enumerator, applied to the package's manifest
lines and the filesystem metadata query, returns exactly the manifest paths
whose metadata is available (entries failing that check are silently
skipped), that are regular files, and that have at least one executable
permission bit set, preserving manifest order; every returned path is a
regular file with an executable bit, so a directory entry or a regular file
lacking every executable bit is never returned. -/
theorem C5_executable_files (fsMeta : Str → Option FileMeta) (lines : List Str)
    (hok : ∀ l ∈ lines, ((splitChar ' ' l)[1]?).isSome) :
    get_package_executable_files fsMeta lines
      = some ((lines.filterMap (fun l => (splitChar ' ' l)[1]?)).filter (execFileKeep fsMeta))
  ∧ ∀ files, get_package_executable_files fsMeta lines = some files →
      ∀ p ∈ files, ∃ m, fsMeta p = some m ∧ m.isFile = true ∧ m.mode &&& 0o111 ≠ 0 :=
  ⟨gpef_eq fsMeta lines hok, fun files h => gpef_mem fsMeta lines files h⟩

/-- C5 witness: a four-line manifest with one executable regular file, one
directory, one non-executable regular file and one vanished path enumerates
to exactly the executable file. -/
theorem C5_witness :
    get_package_executable_files
        (fun p =>
          if p = "/usr/bin/x".toList then some ⟨true, 0o755⟩
          else if p = "/usr/share/d".toList then some ⟨false, 0o755⟩
          else if p = "/usr/share/doc/r".toList then some ⟨true, 0o644⟩
          else none)
        ["pkg /usr/bin/x".toList, "pkg /usr/share/d".toList,
         "pkg /usr/share/doc/r".toList, "pkg /gone".toList]
      = some ["/usr/bin/x".toList] := by
  have h := (C5_executable_files
    (fun p =>
      if p = "/usr/bin/x".toList then some ⟨true, 0o755⟩
      else if p = "/usr/share/d".toList then some ⟨false, 0o755⟩
      else if p = "/usr/share/doc/r".toList then some ⟨true, 0o644⟩
      else none)
    ["pkg /usr/bin/x".toList, "pkg /usr/share/d".toList,
     "pkg /usr/share/doc/r".toList, "pkg /gone".toList]
    (by decide)).1
  rw [h]
  decide

/-- C9: the Executable File Enumerator takes as the file path only the second
`split(' ')` piece of a manifest line; for a path containing a space, that
piece is the prefix of the path up to the first space, and enumerating the
line is indistinguishable from enumerating the line with the path truncated
at the first space — the remainder is ignored. -/
theorem C9_second_token (fsMeta : Str → Option FileMeta) (pkg path : Str)
    (hpkg : ∀ c ∈ pkg, c ≠ ' ') :
    (splitChar ' ' (pkg ++ ' ' :: path))[1]? = some (path.takeWhile (fun c => c != ' '))
  ∧ get_package_executable_files fsMeta [pkg ++ ' ' :: path]
      = get_package_executable_files fsMeta
          [pkg ++ ' ' :: path.takeWhile (fun c => c != ' ')] := by
  have hsplit : splitChar ' ' (pkg ++ ' ' :: path) = pkg :: splitChar ' ' path :=
    splitChar_append_sep ' ' pkg path hpkg
  have h1 : (splitChar ' ' (pkg ++ ' ' :: path))[1]?
      = some (path.takeWhile (fun c => c != ' ')) := by
    rw [hsplit]
    simpa using splitChar_getElem_zero ' ' path
  have hsplit' : splitChar ' ' (pkg ++ ' ' :: path.takeWhile (fun c => c != ' '))
      = pkg :: splitChar ' ' (path.takeWhile (fun c => c != ' ')) :=
    splitChar_append_sep ' ' pkg _ hpkg
  have h0' := splitChar_getElem_zero ' ' (path.takeWhile (fun c => c != ' '))
  rw [takeWhile_idem] at h0'
  have h1' : (splitChar ' ' (pkg ++ ' ' :: path.takeWhile (fun c => c != ' ')))[1]?
      = some (path.takeWhile (fun c => c != ' ')) := by
    rw [hsplit']
    simpa using h0'
  refine ⟨h1, ?_⟩
  simp only [get_package_executable_files, h1, h1']

/-- C9 witness: the manifest line `"pkg /usr/a b"` yields the path
`"/usr/a"`; the trailing `" b"` is ignored. -/
theorem C9_witness :
    (splitChar ' ' ("pkg".toList ++ ' ' :: "/usr/a b".toList))[1]? = some "/usr/a".toList := by
  have h := (C9_second_token (fun _ => none) "pkg".toList "/usr/a b".toList (by decide)).1
  rw [h]
  decide

theorem mem_pushIfNew {α : Type} [DecidableEq α] (acc : List α) (x y : α) :
    y ∈ pushIfNew acc x ↔ y ∈ acc ∨ y = x := by
  unfold pushIfNew
  by_cases hx : x ∈ acc
  · rw [if_pos hx]
    constructor
    · exact Or.inl
    · rintro (h | h)
      · exact h
      · subst h; exact hx
  · rw [if_neg hx]
    simp

theorem nodup_pushIfNew {α : Type} [DecidableEq α] (acc : List α) (x : α)
    (h : acc.Nodup) : (pushIfNew acc x).Nodup := by
  unfold pushIfNew
  by_cases hx : x ∈ acc
  · rw [if_pos hx]; exact h
  · rw [if_neg hx]
    simp [List.nodup_append, h, hx]

theorem addDirPackages_cons (dir : Str) (p : Str) (ps : List Str)
    (acc : List (Str × Str)) :
    addDirPackages dir (p :: ps) acc = addDirPackages dir ps (pushIfNew acc (p, dir)) := rfl

theorem mem_addDirPackages (dir : Str) : ∀ (pkgs : List Str) (acc : List (Str × Str))
    (y : Str × Str),
    y ∈ addDirPackages dir pkgs acc ↔ y ∈ acc ∨ ∃ p ∈ pkgs, y = (p, dir)
  | [], acc, y => by simp [addDirPackages]
  | p :: ps, acc, y => by
    rw [addDirPackages_cons, mem_addDirPackages dir ps _ y, mem_pushIfNew]
    simp only [List.mem_cons]
    constructor
    · rintro ((h | h) | ⟨q, hq, rfl⟩)
      · exact Or.inl h
      · exact Or.inr ⟨p, Or.inl rfl, h⟩
      · exact Or.inr ⟨q, Or.inr hq, rfl⟩
    · rintro (h | ⟨q, (rfl | hq), rfl⟩)
      · exact Or.inl (Or.inl h)
      · exact Or.inl (Or.inr rfl)
      · exact Or.inr ⟨q, hq, rfl⟩

theorem nodup_addDirPackages (dir : Str) : ∀ (pkgs : List Str) (acc : List (Str × Str)),
    acc.Nodup → (addDirPackages dir pkgs acc).Nodup
  | [], acc, h => h
  | p :: ps, acc, h => by
    rw [addDirPackages_cons]
    exact nodup_addDirPackages dir ps _ (nodup_pushIfNew acc (p, dir) h)

theorem mem_gbpp_aux (owning : Str → List Str) (v : PythonPackageVersion) :
    ∀ (dirs : List Str) (acc : List (Str × Str)) (y : Str × Str),
    y ∈ dirs.foldl
        (fun acc dir =>
          if dir ≠ currentPythonDir v then addDirPackages dir (owning dir) acc else acc)
        acc ↔
      y ∈ acc ∨ ∃ d ∈ dirs, d ≠ currentPythonDir v ∧ ∃ p ∈ owning d, y = (p, d)
  | [], acc, y => by simp
  | dir :: rest, acc, y => by
    rw [List.foldl_cons]
    by_cases hd : dir ≠ currentPythonDir v
    · dsimp only
      rw [if_pos hd, mem_gbpp_aux owning v rest _ y, mem_addDirPackages]
      simp only [List.mem_cons]
      constructor
      · rintro ((h | ⟨q, hq, rfl⟩) | ⟨d, hmem, hne, q, hq, rfl⟩)
        · exact Or.inl h
        · exact Or.inr ⟨dir, Or.inl rfl, hd, q, hq, rfl⟩
        · exact Or.inr ⟨d, Or.inr hmem, hne, q, hq, rfl⟩
      · rintro (h | ⟨d, (rfl | hmem), hne, q, hq, rfl⟩)
        · exact Or.inl (Or.inl h)
        · exact Or.inl (Or.inr ⟨q, hq, rfl⟩)
        · exact Or.inr ⟨d, hmem, hne, q, hq, rfl⟩
    · dsimp only
      rw [if_neg hd, mem_gbpp_aux owning v rest _ y]
      push_neg at hd
      subst hd
      constructor
      · rintro (h | h)
        · exact Or.inl h
        · rcases h with ⟨d, hmem, hne, q, hq, rfl⟩
          exact Or.inr ⟨d, List.mem_cons_of_mem _ hmem, hne, q, hq, rfl⟩
      · rintro (h | ⟨d, hmem, hne, q, hq, rfl⟩)
        · exact Or.inl h
        · rcases List.mem_cons.mp hmem with rfl | hmem'
          · exact absurd rfl hne
          · exact Or.inr ⟨d, hmem', hne, q, hq, rfl⟩

theorem nodup_gbpp_aux (owning : Str → List Str) (v : PythonPackageVersion) :
    ∀ (dirs : List Str) (acc : List (Str × Str)), acc.Nodup →
    (dirs.foldl
        (fun acc dir =>
          if dir ≠ currentPythonDir v then addDirPackages dir (owning dir) acc else acc)
        acc).Nodup
  | [], acc, h => h
  | dir :: rest, acc, h => by
    rw [List.foldl_cons]
    by_cases hd : dir ≠ currentPythonDir v
    · dsimp only
      rw [if_pos hd]
      exact nodup_gbpp_aux owning v rest _ (nodup_addDirPackages dir (owning dir) acc h)
    · dsimp only
      rw [if_neg hd]
      exact nodup_gbpp_aux owning v rest _ h

/-- C4: the Python Mismatch Detector's result contains no pair whose
directory is the active `major.minor` directory, contains the (owning
package, directory) pair of every other matched directory and each of its
owning packages, and contains no duplicate pair. -/
theorem C4_broken_python_packages (owning : Str → List Str) (dirs : List Str)
    (v : PythonPackageVersion) :
    (∀ p, (p, currentPythonDir v) ∉ get_broken_python_packages owning dirs v)
  ∧ (∀ d ∈ dirs, d ≠ currentPythonDir v →
      ∀ p ∈ owning d, (p, d) ∈ get_broken_python_packages owning dirs v)
  ∧ (get_broken_python_packages owning dirs v).Nodup := by
  unfold get_broken_python_packages
  refine ⟨?_, ?_, ?_⟩
  · intro p hp
    rw [mem_gbpp_aux] at hp
    rcases hp with h | ⟨d, _, hne, q, _, heq⟩
    · simp at h
    · have : currentPythonDir v = d := congrArg Prod.snd heq
      exact hne this.symm
  · intro d hd hne p hp
    rw [mem_gbpp_aux]
    exact Or.inr ⟨d, hd, hne, p, hp, rfl⟩
  · exact nodup_gbpp_aux owning v dirs [] (by simp)

/-- C4 witness: with active version 3.9.7-2 and matched directories for 3.8,
3.9 and 3.10, the result covers the owners of the 3.8 and 3.10 directories,
excludes every pair naming the 3.9 directory, and has no duplicates. -/
theorem C4_witness :
    ("pkgA".toList, "/usr/lib/python3.8".toList) ∈
      get_broken_python_packages
        (fun d => if d = "/usr/lib/python3.8".toList then ["pkgA".toList]
                  else if d = "/usr/lib/python3.10".toList then ["pkgB".toList]
                  else ["pkgC".toList])
        ["/usr/lib/python3.8".toList, "/usr/lib/python3.9".toList,
         "/usr/lib/python3.10".toList] ⟨3, 9, 7, 2⟩
  ∧ ("pkgB".toList, "/usr/lib/python3.10".toList) ∈
      get_broken_python_packages
        (fun d => if d = "/usr/lib/python3.8".toList then ["pkgA".toList]
                  else if d = "/usr/lib/python3.10".toList then ["pkgB".toList]
                  else ["pkgC".toList])
        ["/usr/lib/python3.8".toList, "/usr/lib/python3.9".toList,
         "/usr/lib/python3.10".toList] ⟨3, 9, 7, 2⟩
  ∧ ("pkgC".toList, "/usr/lib/python3.9".toList) ∉
      get_broken_python_packages
        (fun d => if d = "/usr/lib/python3.8".toList then ["pkgA".toList]
                  else if d = "/usr/lib/python3.10".toList then ["pkgB".toList]
                  else ["pkgC".toList])
        ["/usr/lib/python3.8".toList, "/usr/lib/python3.9".toList,
         "/usr/lib/python3.10".toList] ⟨3, 9, 7, 2⟩
  ∧ (get_broken_python_packages
        (fun d => if d = "/usr/lib/python3.8".toList then ["pkgA".toList]
                  else if d = "/usr/lib/python3.10".toList then ["pkgB".toList]
                  else ["pkgC".toList])
        ["/usr/lib/python3.8".toList, "/usr/lib/python3.9".toList,
         "/usr/lib/python3.10".toList] ⟨3, 9, 7, 2⟩).Nodup := by
  have h := C4_broken_python_packages
    (fun d => if d = "/usr/lib/python3.8".toList then ["pkgA".toList]
              else if d = "/usr/lib/python3.10".toList then ["pkgB".toList]
              else ["pkgC".toList])
    ["/usr/lib/python3.8".toList, "/usr/lib/python3.9".toList,
     "/usr/lib/python3.10".toList] ⟨3, 9, 7, 2⟩
  have hcur : currentPythonDir ⟨3, 9, 7, 2⟩ = "/usr/lib/python3.9".toList := by decide
  refine ⟨?_, ?_, ?_, h.2.2⟩
  · exact h.2.1 _ (by simp) (by rw [hcur]; decide) _ (by decide)
  · exact h.2.1 _ (by simp) (by rw [hcur]; decide) _ (by decide)
  · exact hcur ▸ h.1 "pkgC".toList

theorem parsePythonVersion_some (s : Str) (pv : PythonPackageVersion)
    (h : parsePythonVersion s = some pv) :
    ∃ sa sb sc s1 s2,
      (splitChar '.' s)[0]? = some sa ∧ (splitChar '.' s)[1]? = some sb ∧
      (splitChar '.' s)[2]? = some sc ∧
      (splitChar '-' sc)[0]? = some s1 ∧ (splitChar '-' sc)[1]? = some s2 ∧
      parseU8 sa = some pv.major ∧ parseU8 sb = some pv.minor ∧
      parseU8 s1 = some pv.release ∧ parseU8 s2 = some pv.package := by
  unfold parsePythonVersion at h
  simp only [bind, Option.bind_eq_some, Option.pure_def, Option.some.injEq] at h
  obtain ⟨sa, h0, sb, h1, sc, h2, a, pa, b, pb, s1, g0, s2, g1, c, pc, d, pd, hpv⟩ := h
  subst hpv
  exact ⟨sa, sb, sc, s1, s2, h0, h1, h2, g0, g1, pa, pb, pc, pd⟩

theorem parsePythonVersion_build (s sa sb sc s1 s2 : Str) (a b c d : Nat)
    (h0 : (splitChar '.' s)[0]? = some sa) (h1 : (splitChar '.' s)[1]? = some sb)
    (h2 : (splitChar '.' s)[2]? = some sc)
    (g0 : (splitChar '-' sc)[0]? = some s1) (g1 : (splitChar '-' sc)[1]? = some s2)
    (pa : parseU8 sa = some a) (pb : parseU8 sb = some b)
    (pc : parseU8 s1 = some c) (pd : parseU8 s2 = some d) :
    parsePythonVersion s = some ⟨a, b, c, d⟩ := by
  unfold parsePythonVersion
  simp [h0, h1, h2, g0, g1, pa, pb, pc, pd]

/-- C10 (amended): each version component is parsed as an 8-bit unsigned
integer: a component string parses exactly when it is a nonempty decimal
numeral, optionally preceded by a single `'+'`, whose value is at most 255 —
so a component whose value exceeds 255, or that is not such a numeral,
fails and aborts the version query — and every component of a successfully
parsed version lies in 0..=255. -/
theorem C10_u8_components :
    (∀ (s : Str) (v : Nat),
      parseU8 s = some v ↔
        ∃ ds, (s = ds ∨ s = '+' :: ds) ∧ ds ≠ [] ∧ ds.all Char.isDigit = true ∧
          valFrom 0 ds = v ∧ v ≤ 255)
  ∧ (∀ (s : Str) (pv : PythonPackageVersion), parsePythonVersion s = some pv →
      pv.major ≤ 255 ∧ pv.minor ≤ 255 ∧ pv.release ≤ 255 ∧ pv.package ≤ 255) := by
  have hchar : ∀ (s : Str) (v : Nat),
      parseU8 s = some v ↔
        ∃ ds, (s = ds ∨ s = '+' :: ds) ∧ ds ≠ [] ∧ ds.all Char.isDigit = true ∧
          valFrom 0 ds = v ∧ v ≤ 255 := by
    intro s v
    constructor
    · intro h
      cases s with
      | nil => simp [parseU8] at h
      | cons c rest =>
        by_cases hc : c = '+'
        · subst hc
          simp only [parseU8, if_pos rfl] at h
          by_cases hr : rest = []
          · rw [if_pos hr] at h; cases h
          · rw [if_neg hr] at h
            obtain ⟨hall, hval, hle⟩ := parseU8Loop_some rest v h
            exact ⟨rest, Or.inr rfl, hr, hall, hval, hle⟩
        · simp only [parseU8, if_neg hc] at h
          obtain ⟨hall, hval, hle⟩ := parseU8Loop_some (c :: rest) v h
          exact ⟨c :: rest, Or.inl rfl, by simp, hall, hval, hle⟩
    · rintro ⟨ds, hs, hne, hall, hval, hle⟩
      have hloop : parseU8Loop ds 0 = some v := by
        rw [parseU8Loop_eq ds 0 (by omega), if_pos ⟨hall, by rw [hval]; exact hle⟩, hval]
      rcases hs with rfl | rfl
      · cases s with
        | nil => exact absurd rfl hne
        | cons c rest =>
          have hd : c.isDigit = true := List.all_eq_true.mp hall c (by simp)
          have hcp : c ≠ '+' := by
            intro hcc
            rw [hcc] at hd
            exact absurd hd (by decide)
          simp only [parseU8, if_neg hcp]
          exact hloop
      · simp only [parseU8, if_pos rfl, if_neg hne]
        exact hloop
  refine ⟨hchar, ?_⟩
  intro s pv h
  obtain ⟨sa, sb, sc, s1, s2, _, _, _, _, _, pa, pb, pc, pd⟩ :=
    parsePythonVersion_some s pv h
  obtain ⟨_, _, _, _, _, ha⟩ := (hchar _ _).mp pa
  obtain ⟨_, _, _, _, _, hb⟩ := (hchar _ _).mp pb
  obtain ⟨_, _, _, _, _, hc⟩ := (hchar _ _).mp pc
  obtain ⟨_, _, _, _, _, hd⟩ := (hchar _ _).mp pd
  exact ⟨ha, hb, hc, hd⟩

/-- C10 witness: `"+37"` parses to 37 (within 0..=255). -/
theorem C10_witness : parseU8 "+37".toList = some 37 ∧ 37 ≤ 255 := by
  refine ⟨?_, by omega⟩
  exact (C10_u8_components.1 "+37".toList 37).mpr
    ⟨"37".toList, Or.inr (by decide), by decide, by decide, by decide, by omega⟩

/-- C10 counterexample: the version text `"+1.2.3-4"` has first component
`"+1"`, which is not a decimal numeral, yet the version query succeeds
(parsing it as 1) instead of aborting as the claim states. -/
theorem C10_counterexample :
    (splitChar '.' "+1.2.3-4".toList)[0]? = some "+1".toList
  ∧ isNumeral "+1".toList = false
  ∧ parsePythonVersion "+1.2.3-4".toList = some ⟨1, 2, 3, 4⟩ := by
  decide

/-- C6 (amended): the active interpreter version is parsed from the version
text as `"<major>.<minor>.<release>-<build>"` into four integer fields, and a
missing or malformed version text aborts the scan — except that the parser
tolerates trailing extra components: it reads only the first two
dot-separated pieces and the first two dash-separated sub-pieces of the third
dot-separated piece, ignoring anything after them, so only texts failing that
looser shape are fatal. -/
theorem C6_version_parsing :
    (∀ lines, extractVersionStr lines = none → get_python_version lines = none)
  ∧ (∀ (sa sb sc sd : Str) (a b c d : Nat),
      parseU8 sa = some a → parseU8 sb = some b → parseU8 sc = some c →
      parseU8 sd = some d →
      parsePythonVersion (sa ++ '.' :: sb ++ '.' :: sc ++ '-' :: sd) = some ⟨a, b, c, d⟩)
  ∧ (∀ (sa sb sc sd junk : Str) (a b c d : Nat),
      parseU8 sa = some a → parseU8 sb = some b → parseU8 sc = some c →
      parseU8 sd = some d →
      parsePythonVersion (sa ++ '.' :: sb ++ '.' :: sc ++ '-' :: sd ++ '-' :: junk)
        = some ⟨a, b, c, d⟩)
  ∧ (∀ (sa sb sc sd junk : Str) (a b c d : Nat),
      parseU8 sa = some a → parseU8 sb = some b → parseU8 sc = some c →
      parseU8 sd = some d →
      parsePythonVersion (sa ++ '.' :: sb ++ '.' :: sc ++ '-' :: sd ++ '.' :: junk)
        = some ⟨a, b, c, d⟩)
  ∧ (∀ s, versionShapeOK s = false → parsePythonVersion s = none) := by
  refine ⟨?_, ?_, ?_, ?_, ?_⟩
  · intro lines h
    unfold get_python_version
    rw [h]
    rfl
  · intro sa sb sc sd a b c d pa pb pc pd
    have hA : ∀ ch ∈ sa, ch ≠ '.' := parseU8_no_sep sa a '.' pa (by decide) (by decide)
    have hB : ∀ ch ∈ sb, ch ≠ '.' := parseU8_no_sep sb b '.' pb (by decide) (by decide)
    have hC : ∀ ch ∈ sc, ch ≠ '.' := parseU8_no_sep sc c '.' pc (by decide) (by decide)
    have hD : ∀ ch ∈ sd, ch ≠ '.' := parseU8_no_sep sd d '.' pd (by decide) (by decide)
    have hC' : ∀ ch ∈ sc, ch ≠ '-' := parseU8_no_sep sc c '-' pc (by decide) (by decide)
    have hD' : ∀ ch ∈ sd, ch ≠ '-' := parseU8_no_sep sd d '-' pd (by decide) (by decide)
    have h3 : ∀ ch ∈ (sc ++ '-' :: sd), ch ≠ '.' := by
      intro ch hch
      rcases List.mem_append.mp hch with h | h
      · exact hC ch h
      · rcases List.mem_cons.mp h with rfl | h
        · decide
        · exact hD ch h
    have hsplit : splitChar '.' (sa ++ '.' :: (sb ++ '.' :: (sc ++ '-' :: sd)))
        = sa :: sb :: [sc ++ '-' :: sd] := by
      rw [splitChar_append_sep '.' sa _ hA, splitChar_append_sep '.' sb _ hB,
        splitChar_no_sep '.' _ h3]
    have hdash : splitChar '-' (sc ++ '-' :: sd) = [sc, sd] := by
      rw [splitChar_append_sep '-' sc sd hC', splitChar_no_sep '-' sd hD']
    refine parsePythonVersion_build _ sa sb (sc ++ '-' :: sd) sc sd a b c d
      ?_ ?_ ?_ ?_ ?_ pa pb pc pd
    · simp only [List.append_assoc, List.cons_append]; rw [hsplit]; simp
    · simp only [List.append_assoc, List.cons_append]; rw [hsplit]; simp
    · simp only [List.append_assoc, List.cons_append]; rw [hsplit]; simp
    · rw [hdash]; simp
    · rw [hdash]; simp
  · intro sa sb sc sd junk a b c d pa pb pc pd
    have hA : ∀ ch ∈ sa, ch ≠ '.' := parseU8_no_sep sa a '.' pa (by decide) (by decide)
    have hB : ∀ ch ∈ sb, ch ≠ '.' := parseU8_no_sep sb b '.' pb (by decide) (by decide)
    have hC : ∀ ch ∈ sc, ch ≠ '.' := parseU8_no_sep sc c '.' pc (by decide) (by decide)
    have hD : ∀ ch ∈ sd, ch ≠ '.' := parseU8_no_sep sd d '.' pd (by decide) (by decide)
    have hC' : ∀ ch ∈ sc, ch ≠ '-' := parseU8_no_sep sc c '-' pc (by decide) (by decide)
    have hD' : ∀ ch ∈ sd, ch ≠ '-' := parseU8_no_sep sd d '-' pd (by decide) (by decide)
    have hAnoDot : ∀ ch ∈ (sc ++ '-' :: (sd ++ ['-'])), ch ≠ '.' := by
      intro ch hch
      rcases List.mem_append.mp hch with h | h
      · exact hC ch h
      · rcases List.mem_cons.mp h with rfl | h
        · decide
        · rcases List.mem_append.mp h with h' | h'
          · exact hD ch h'
          · rcases List.mem_singleton.mp h' with rfl
            decide
    have hT : sc ++ '-' :: (sd ++ '-' :: junk) = (sc ++ '-' :: (sd ++ ['-'])) ++ junk := by
      simp
    cases hjs : splitChar '.' junk with
    | nil => exact absurd hjs (splitChar_ne_nil '.' junk)
    | cons t ts =>
      have hsplit : splitChar '.' (sa ++ '.' :: (sb ++ '.' :: (sc ++ '-' :: (sd ++ '-' :: junk))))
          = sa :: sb :: ((sc ++ '-' :: (sd ++ ['-'])) ++ t) :: ts := by
        rw [splitChar_append_sep '.' sa _ hA, splitChar_append_sep '.' sb _ hB, hT,
          splitChar_append '.' _ junk hAnoDot, hjs]
        simp [List.modifyHead]
      have hthird : (sc ++ '-' :: (sd ++ ['-'])) ++ t = sc ++ '-' :: (sd ++ '-' :: t) := by
        simp
      have hdash : splitChar '-' ((sc ++ '-' :: (sd ++ ['-'])) ++ t)
          = sc :: sd :: splitChar '-' t := by
        rw [hthird, splitChar_append_sep '-' sc _ hC', splitChar_append_sep '-' sd t hD']
      refine parsePythonVersion_build _ sa sb ((sc ++ '-' :: (sd ++ ['-'])) ++ t) sc sd a b c d
        ?_ ?_ ?_ ?_ ?_ pa pb pc pd
      · simp only [List.append_assoc, List.cons_append]; rw [hsplit]; simp
      · simp only [List.append_assoc, List.cons_append]; rw [hsplit]; simp
      · simp only [List.append_assoc, List.cons_append]; rw [hsplit]; simp
      · rw [hdash]; simp
      · rw [hdash]; simp
  · intro sa sb sc sd junk a b c d pa pb pc pd
    have hA : ∀ ch ∈ sa, ch ≠ '.' := parseU8_no_sep sa a '.' pa (by decide) (by decide)
    have hB : ∀ ch ∈ sb, ch ≠ '.' := parseU8_no_sep sb b '.' pb (by decide) (by decide)
    have hC : ∀ ch ∈ sc, ch ≠ '.' := parseU8_no_sep sc c '.' pc (by decide) (by decide)
    have hD : ∀ ch ∈ sd, ch ≠ '.' := parseU8_no_sep sd d '.' pd (by decide) (by decide)
    have hC' : ∀ ch ∈ sc, ch ≠ '-' := parseU8_no_sep sc c '-' pc (by decide) (by decide)
    have hD' : ∀ ch ∈ sd, ch ≠ '-' := parseU8_no_sep sd d '-' pd (by decide) (by decide)
    have h3 : ∀ ch ∈ (sc ++ '-' :: sd), ch ≠ '.' := by
      intro ch hch
      rcases List.mem_append.mp hch with h | h
      · exact hC ch h
      · rcases List.mem_cons.mp h with rfl | h
        · decide
        · exact hD ch h
    have hT : sc ++ '-' :: (sd ++ '.' :: junk) = (sc ++ '-' :: sd) ++ '.' :: junk := by
      simp
    have hsplit : splitChar '.' (sa ++ '.' :: (sb ++ '.' :: (sc ++ '-' :: (sd ++ '.' :: junk))))
        = sa :: sb :: (sc ++ '-' :: sd) :: splitChar '.' junk := by
      rw [splitChar_append_sep '.' sa _ hA, splitChar_append_sep '.' sb _ hB, hT,
        splitChar_append_sep '.' _ junk h3]
    have hdash : splitChar '-' (sc ++ '-' :: sd) = [sc, sd] := by
      rw [splitChar_append_sep '-' sc sd hC', splitChar_no_sep '-' sd hD']
    refine parsePythonVersion_build _ sa sb (sc ++ '-' :: sd) sc sd a b c d
      ?_ ?_ ?_ ?_ ?_ pa pb pc pd
    · simp only [List.append_assoc, List.cons_append]; rw [hsplit]; simp
    · simp only [List.append_assoc, List.cons_append]; rw [hsplit]; simp
    · simp only [List.append_assoc, List.cons_append]; rw [hsplit]; simp
    · rw [hdash]; simp
    · rw [hdash]; simp
  · intro s hfalse
    cases hp : parsePythonVersion s with
    | none => rfl
    | some pv =>
      obtain ⟨sa, sb, sc, s1, s2, h0, h1, h2, g0, g1, pa, pb, pc, pd⟩ :=
        parsePythonVersion_some s pv hp
      have : versionShapeOK s = true := by
        unfold versionShapeOK
        rw [h0, h1, h2]
        dsimp only
        rw [g0, g1]
        dsimp only
        rw [pa, pb, pc, pd]
        rfl
      rw [this] at hfalse
      cases hfalse

/-- C6 witness: the well-formed version text `"3.9.7-2"` parses into the four
fields 3, 9, 7, 2. -/
theorem C6_witness : parsePythonVersion "3.9.7-2".toList = some ⟨3, 9, 7, 2⟩ := by
  have heq : "3.9.7-2".toList
      = "3".toList ++ '.' :: "9".toList ++ '.' :: "7".toList ++ '-' :: "2".toList := by
    decide
  rw [heq]
  exact C6_version_parsing.2.1 "3".toList "9".toList "7".toList "2".toList 3 9 7 2
    (by decide) (by decide) (by decide) (by decide)

/-- C6 counterexample: the text `"1.2.3-4-6.5"` is malformed with respect to
the format `"<major>.<minor>.<release>-<build>"`, yet the version query
succeeds with 1.2.3-4 (the extra `-6` and `.5` components are silently
ignored) instead of aborting as the claim states. -/
theorem C6_counterexample :
    matchesVersionFormat "1.2.3-4-6.5".toList = false
  ∧ parsePythonVersion "1.2.3-4-6.5".toList = some ⟨1, 2, 3, 4⟩ := by
  decide

theorem stageA_package_eq (env : ScanEnv) (p : Str) :
    stageA_package env p
      = if env.execFiles p = [] then ([], 1) else (tagLast p (env.execFiles p), 0) := by
  unfold stageA_package
  by_cases hp : env.execFiles p = []
  · simp [hp]
  · have hfe : (env.execFiles p).isEmpty = false := by
      cases hx : env.execFiles p with
      | nil => exact absurd hx hp
      | cons y ys => rfl
    simp [hfe, hp, stageA_items_eq_tagLast]

theorem getElem?_tagLast (pkg : Str) (files : List Str) (i : Nat)
    (h' : i < files.length) :
    (tagLast pkg files)[i]? = some ⟨pkg, files.get ⟨i, h'⟩, i == files.length - 1⟩ := by
  have hlen : i < (tagLast pkg files).length := by rw [length_tagLast]; exact h'
  rw [List.getElem?_eq_getElem hlen]
  have hg := get_tagLast pkg files i hlen h'
  rw [List.get_eq_getElem] at hg
  rw [hg]

/-- C2: for a package whose executable enumeration yields a nonempty list of
N files, Stage A emits exactly N work items; exactly one of them carries
`package_last = true`; and the i-th item is derived from the i-th enumerated
file, with the flag set exactly at index N-1 (the final entry). -/
theorem C2_stage_a_items (env : ScanEnv) (pkg : Str) (hne : env.execFiles pkg ≠ []) :
    ((stageA_package env pkg).1).length = (env.execFiles pkg).length
  ∧ ((stageA_package env pkg).1).countP (fun w => w.package_last) = 1
  ∧ ∀ i (h' : i < (env.execFiles pkg).length),
      ((stageA_package env pkg).1)[i]?
        = some ⟨pkg, (env.execFiles pkg).get ⟨i, h'⟩,
            i == (env.execFiles pkg).length - 1⟩ := by
  have hA : (stageA_package env pkg).1 = tagLast pkg (env.execFiles pkg) := by
    rw [stageA_package_eq, if_neg hne]
  refine ⟨?_, ?_, ?_⟩
  · rw [hA, length_tagLast]
  · rw [hA]; exact countP_tagLast pkg _ hne
  · intro i h'
    rw [hA]
    exact getElem?_tagLast pkg _ i h'

/-- C2 witness: in the example environment, package `"foo"` with two
executables yields two work items, exactly one of them tagged last. -/
theorem C2_witness :
    ((stageA_package exScanEnv "foo".toList).1).length = 2
  ∧ ((stageA_package exScanEnv "foo".toList).1).countP (fun w => w.package_last) = 1 := by
  have h := C2_stage_a_items exScanEnv "foo".toList (by decide)
  refine ⟨?_, h.2.1⟩
  rw [h.1]
  decide

/-- C1: over one whole scan, Stage A increments plus Stage B increments equal
the package count exactly; a package with no executables contributes exactly
one increment in Stage A and produces no work items; a package with
executables contributes no Stage A increment and exactly one Stage B
increment (carried by the item tagged last — untagged items contribute
none). -/
theorem C1_progress_exactly_once (env : ScanEnv) (pkgs : List Str) :
    scan_stageA_incs env pkgs
        + scan_stageB_incs env (scan_exec_items env pkgs) = pkgs.length
  ∧ (∀ p, env.execFiles p = [] → stageA_package env p = ([], 1))
  ∧ (∀ p, env.execFiles p ≠ [] →
      (stageA_package env p).2 = 0
      ∧ scan_stageB_incs env ((stageA_package env p).1) = 1)
  ∧ (∀ w : ExecFileWork, w.package_last = false → (stageB_item env w).2 = 0) := by
  have hempty : ∀ p, env.execFiles p = [] → stageA_package env p = ([], 1) := by
    intro p hp
    rw [stageA_package_eq, if_pos hp]
  have hnon : ∀ p, env.execFiles p ≠ [] →
      (stageA_package env p).2 = 0
      ∧ scan_stageB_incs env ((stageA_package env p).1) = 1 := by
    intro p hp
    have hA := stageA_package_eq env p
    rw [if_neg hp] at hA
    constructor
    · rw [hA]
    · rw [hA, scan_stageB_incs_eq_countP]
      exact countP_tagLast p _ hp
  have hper : ∀ p,
      (stageA_package env p).2 + scan_stageB_incs env ((stageA_package env p).1) = 1 := by
    intro p
    by_cases hp : env.execFiles p = []
    · rw [hempty p hp]
      simp [scan_stageB_incs]
    · rcases hnon p hp with ⟨h1, h2⟩
      omega
  refine ⟨?_, hempty, hnon, ?_⟩
  · induction pkgs with
    | nil => simp [scan_stageA_incs, scan_stageB_incs, scan_exec_items]
    | cons p ps ih =>
      have hitems : scan_exec_items env (p :: ps)
          = (stageA_package env p).1 ++ scan_exec_items env ps := by
        simp [scan_exec_items]
      have happ : scan_stageB_incs env ((stageA_package env p).1 ++ scan_exec_items env ps)
          = scan_stageB_incs env ((stageA_package env p).1)
            + scan_stageB_incs env (scan_exec_items env ps) := by
        simp [scan_stageB_incs]
      have hcons : scan_stageA_incs env (p :: ps)
          = (stageA_package env p).2 + scan_stageA_incs env ps := by
        simp [scan_stageA_incs]
      have hp := hper p
      rw [hitems, happ, hcons, List.length_cons]
      omega
  · intro w hw
    simp [stageB_item, hw]

/-- C1 witness: in the example environment, a two-package scan (one package
with two executables, one with none) performs exactly two increments in
total; the empty package increments once in Stage A with no items, the other
exactly once in Stage B. -/
theorem C1_witness :
    scan_stageA_incs exScanEnv ["foo".toList, "bar".toList]
        + scan_stageB_incs exScanEnv
            (scan_exec_items exScanEnv ["foo".toList, "bar".toList]) = 2
  ∧ stageA_package exScanEnv "bar".toList = ([], 1)
  ∧ scan_stageB_incs exScanEnv ((stageA_package exScanEnv "foo".toList).1) = 1 := by
  have h := C1_progress_exactly_once exScanEnv ["foo".toList, "bar".toList]
  exact ⟨h.1.trans (by decide), h.2.1 _ (by decide), (h.2.2.1 _ (by decide)).2⟩

theorem count_scan_findings (env : ScanEnv) (items : List ExecFileWork) (t : Finding) :
    (scan_findings env items).count t
      = (items.map (fun w => ((stageB_item env w).1.count t))).sum := by
  induction items with
  | nil => simp [scan_findings]
  | cons w ws ih =>
    simp only [scan_findings] at ih
    simp only [scan_findings, List.flatMap_cons, List.count_append, List.map_cons,
      List.sum_cons, ih]

/-- C7: the missing-dependency finding list is not deduplicated: for every
environment and work-item sequence, the number of occurrences of any finding
triple equals the sum over the work items of that triple's occurrences in the
item's emitted findings (multiplicities add up, nothing is collapsed), and a
triple can genuinely occur more than once in the finding list. -/
theorem C7_findings_not_deduplicated :
    (∀ (env : ScanEnv) (items : List ExecFileWork) (t : Finding),
      (scan_findings env items).count t
        = (items.map (fun w => ((stageB_item env w).1.count t))).sum)
  ∧ (∃ (env : ScanEnv) (items : List ExecFileWork) (t : Finding),
      1 < (scan_findings env items).count t) := by
  refine ⟨fun env items t => count_scan_findings env items t, ?_⟩
  refine ⟨⟨fun _ => [],
      fun _ => ProbeOutput.mk true
        ["liba.so => not found".toList, "liba.so => not found".toList]⟩,
    [⟨"p".toList, "/f".toList, true⟩],
    ("p".toList, "/f".toList, "liba.so".toList), ?_⟩
  decide

/-- C8: with the environment fixed, the scan's results are order-independent:
for any two processing orders of the packages and of the work items (each a
permutation of what Stage A produces), the two runs' finding lists are
permutations of each other — identical as unordered collections — and the
stray-Python-directory computation, a deterministic function of the
environment, is identical between the runs. -/
theorem C8_unordered_results_identical (env : ScanEnv) (owning : Str → List Str)
    (dirs : List Str) (v : PythonPackageVersion)
    (pkgs1 pkgs2 : List Str) (items1 items2 : List ExecFileWork)
    (hp : List.Perm pkgs1 pkgs2)
    (h1 : List.Perm items1 (scan_exec_items env pkgs1))
    (h2 : List.Perm items2 (scan_exec_items env pkgs2)) :
    List.Perm (scan_findings env items1) (scan_findings env items2)
  ∧ get_broken_python_packages owning dirs v = get_broken_python_packages owning dirs v := by
  refine ⟨?_, rfl⟩
  have hscan : List.Perm (scan_exec_items env pkgs1) (scan_exec_items env pkgs2) := by
    unfold scan_exec_items
    exact hp.flatMap_right _
  have hitems : List.Perm items1 items2 := (h1.trans hscan).trans h2.symm
  unfold scan_findings
  exact hitems.flatMap_right _

/-- C8 witness: two runs over the same two packages in opposite orders
produce finding lists that are permutations of each other. -/
theorem C8_witness :
    List.Perm
      (scan_findings exScanEnv (scan_exec_items exScanEnv ["foo".toList, "bar".toList]))
      (scan_findings exScanEnv (scan_exec_items exScanEnv ["bar".toList, "foo".toList])) := by
  exact (C8_unordered_results_identical exScanEnv (fun _ => []) [] ⟨3, 9, 7, 2⟩
    ["foo".toList, "bar".toList] ["bar".toList, "foo".toList] _ _
    (by decide) (List.Perm.refl _) (List.Perm.refl _)).1

end Pacman
